import Mathlib

/-!
Verification of the TexturePacker packing pipeline (`src/main.rs`).

The pipeline transforms a list of axis-aligned rectangles ("patches")
through five stages: Initial → Uprighted → SortedByHeight → Flowed →
PackedUpwards.  The Rust source stores geometry in `f32`; this development
embeds the geometry in `ℚ`, so every arithmetic identity of the source
(`left + width = right`, etc.) holds exactly.  Randomness
(`rand::gen_range`) is modelled by an explicitly passed stream of unit
samples.  Rust's stable `sort_by` is modelled by insertion sort, which is
also stable; a stable sort with respect to a fixed total preorder has a
unique result, so the two agree.
-/

namespace TexturePacker

/-- 2-D vector, mirroring macroquad's `Vec2` (f32 components in the source). -/
structure Vec2 where
  x : ℚ
  y : ℚ
deriving DecidableEq, Repr

/-- The `rotation: f32` field of `Patch` only ever holds `0.0` or
`std::f32::consts::FRAC_PI_2` (90°), so it is embedded as a two-point type. -/
inductive Rot where
  | r0
  | r90
deriving DecidableEq, Repr

/-- `struct Patch` from `src/main.rs`. -/
structure Patch where
  id : ℤ
  center : Vec2
  extent : Vec2
  rotation : Rot
deriving DecidableEq, Repr

namespace Patch

/-- `Patch::width`. -/
def width (p : Patch) : ℚ := p.extent.x

/-- `Patch::height`. -/
def height (p : Patch) : ℚ := p.extent.y

/-- `Patch::left`. -/
def left (p : Patch) : ℚ := p.center.x - p.extent.x / 2

/-- `Patch::right`. -/
def right (p : Patch) : ℚ := p.center.x + p.extent.x / 2

/-- `Patch::top`. -/
def top (p : Patch) : ℚ := p.center.y - p.extent.y / 2

/-- `Patch::bottom`. -/
def bottom (p : Patch) : ℚ := p.center.y + p.extent.y / 2

/-- `Patch::uprighted`. -/
def uprighted (p : Patch) : Patch :=
  if p.width > p.height then
    { id := p.id
      center := p.center
      extent := ⟨p.extent.y, p.extent.x⟩
      rotation := Rot.r90 }
  else p

/-- `Patch::with_left_and_top`. -/
def with_left_and_top (p : Patch) (l t : ℚ) : Patch :=
  { id := p.id
    center := ⟨l + p.extent.x / 2, t + p.extent.y / 2⟩
    extent := p.extent
    rotation := p.rotation }

/-- `Patch::overlaps`: inclusive axis-aligned bounding-box overlap, written
exactly as in the source (`left + width` rather than `right`, etc.). -/
def overlaps (p other : Patch) : Bool :=
  (decide (p.left ≤ other.left + other.width) &&
      decide (p.left + p.width ≥ other.left)) &&
    (decide (p.top ≤ other.top + other.height) &&
      decide (p.top + p.height ≥ other.top))

@[simp] theorem with_left_and_top_id (p : Patch) (l t : ℚ) :
    (p.with_left_and_top l t).id = p.id := rfl

@[simp] theorem with_left_and_top_extent (p : Patch) (l t : ℚ) :
    (p.with_left_and_top l t).extent = p.extent := rfl

@[simp] theorem with_left_and_top_width (p : Patch) (l t : ℚ) :
    (p.with_left_and_top l t).width = p.width := rfl

@[simp] theorem with_left_and_top_height (p : Patch) (l t : ℚ) :
    (p.with_left_and_top l t).height = p.height := rfl

@[simp] theorem with_left_and_top_left (p : Patch) (l t : ℚ) :
    (p.with_left_and_top l t).left = l := by
  simp [with_left_and_top, left]

@[simp] theorem with_left_and_top_top (p : Patch) (l t : ℚ) :
    (p.with_left_and_top l t).top = t := by
  simp [with_left_and_top, top]

@[simp] theorem with_left_and_top_right (p : Patch) (l t : ℚ) :
    (p.with_left_and_top l t).right = l + p.width := by
  simp [with_left_and_top, right, width]; ring

@[simp] theorem with_left_and_top_bottom (p : Patch) (l t : ℚ) :
    (p.with_left_and_top l t).bottom = t + p.height := by
  simp [with_left_and_top, bottom, height]; ring

theorem left_add_width (p : Patch) : p.left + p.width = p.right := by
  simp [left, width, right]; ring

theorem top_add_height (p : Patch) : p.top + p.height = p.bottom := by
  simp [top, height, bottom]; ring

/-- The source's overlap test, rephrased with the edge accessors. -/
theorem overlaps_eq_true_iff (p q : Patch) :
    p.overlaps q = true ↔
      p.left ≤ q.right ∧ p.right ≥ q.left ∧ p.top ≤ q.bottom ∧ p.bottom ≥ q.top := by
  simp only [overlaps, Bool.and_eq_true, decide_eq_true_eq, ← left_add_width,
    ← top_add_height]
  constructor
  · rintro ⟨⟨h1, h2⟩, h3, h4⟩
    exact ⟨by linarith [q.left_add_width], h2, by linarith [q.top_add_height], h4⟩
  · rintro ⟨h1, h2, h3, h4⟩
    exact ⟨⟨by linarith [q.left_add_width], h2⟩, by linarith [q.top_add_height], h4⟩

end Patch

/-- `struct PackingConfig`. -/
structure PackingConfig where
  width : ℚ
  height : ℚ
  padding : ℚ
deriving DecidableEq, Repr

/-- macroquad's `rand::gen_range(lo, hi)`: `lo + r * (hi - lo)` for a unit
sample `r` drawn from the process-wide generator. -/
def genRange (lo hi r : ℚ) : ℚ := lo + r * (hi - lo)

/-- `InitialState::new` (`src/main.rs:95-123`).  The process-wide random
generator is modelled by the stream `rand`; patch `k` consumes samples
`rand (2*k)` (width) and `rand (2*k+1)` (height), in the order the source
draws them.  `for row in 0..rows` over `i32` iterates `max rows 0` times,
which is `rows.toNat` here; there is no validation of any argument. -/
def InitialState.new (config : PackingConfig) (cols rows : ℤ) (rand : ℕ → ℚ) :
    List Patch :=
  let cell_width := config.width / (cols : ℚ)
  let cell_height := config.height / (rows : ℚ)
  let max_width := cell_width * (11 / 10)
  let max_height := cell_height * (11 / 10)
  let min_width := cell_width * (1 / 2)
  let min_height := cell_height * (1 / 2)
  (List.range rows.toNat).flatMap fun row =>
    (List.range cols.toNat).map fun col =>
      let k := row * cols.toNat + col
      let across_x := (col : ℚ) / (cols : ℚ)
      let across_y := (row : ℚ) / (rows : ℚ)
      let w := genRange min_width max_width (rand (2 * k))
      let h := genRange min_height max_height (rand (2 * k + 1))
      { id := (k : ℤ)
        center := ⟨config.width * across_x + cell_width / 2,
                   config.height * across_y + cell_height / 2⟩
        extent := ⟨w, h⟩
        rotation := Rot.r0 }

/-- `UprightedState::from`: maps `Patch::uprighted` over the list. -/
def uprightPatches (l : List Patch) : List Patch := l.map Patch.uprighted

/-- The comparator of `SortedByHeightState::from`:
`b.height().partial_cmp(&a.height())` sorts by height descending.
Rust's `sort_by` is a stable sort; a stable sort with respect to a total
preorder has a unique result, so the stable `List.insertionSort` with the
same preorder produces exactly the list the source produces. -/
def sortPatchesByHeight (l : List Patch) : List Patch :=
  l.insertionSort fun a b => b.height ≤ a.height

/-- The placement loop of `SortedByHeightState::from`: each patch is placed
with its left edge at `last.right() + padding` (or `padding` for the first)
and its top edge at `padding`, where `last` is the previously arranged
patch. -/
def arrangeLoop (padding : ℚ) (arranged : List Patch) : List Patch → List Patch
  | [] => arranged
  | p :: rest =>
    let placed :=
      match arranged.getLast? with
      | some last => p.with_left_and_top (last.right + padding) padding
      | none => p.with_left_and_top padding padding
    arrangeLoop padding (arranged ++ [placed]) rest

/-- `SortedByHeightState::from` (`src/main.rs:176-192`). -/
def sortedByHeightFrom (padding : ℚ) (l : List Patch) : List Patch :=
  arrangeLoop padding [] (sortPatchesByHeight l)

/-- The mutable loop state of `FlowedState::from`:
`current_x`, `current_y`, `row_height`, `row`. -/
structure FlowCursor where
  x : ℚ
  y : ℚ
  row_height : ℚ
  row : ℕ
deriving DecidableEq, Repr

/-- One iteration of the `FlowedState::from` loop body
(`src/main.rs:224-248`): resolve the (boustrophedon) wrap, place the patch,
update `row_height`, and advance `x` on even rows. -/
def flowStep (cfg : PackingConfig) (c : FlowCursor) (p : Patch) :
    FlowCursor × Patch :=
  let c1 :=
    if c.row % 2 = 0 then
      if c.x + p.width > cfg.width then
        { x := cfg.width - cfg.padding - p.width
          y := c.y + c.row_height
          row_height := 0
          row := c.row + 1 }
      else c
    else
      let x' := c.x - (p.width + cfg.padding)
      if x' < cfg.padding then
        { x := cfg.padding
          y := c.y + c.row_height
          row_height := 0
          row := c.row + 1 }
      else { c with x := x' }
  let placed := p.with_left_and_top c1.x c1.y
  let c2 := { c1 with row_height := max c1.row_height (p.height + cfg.padding) }
  let c3 := if c2.row % 2 = 0 then { c2 with x := c2.x + (p.width + cfg.padding) } else c2
  (c3, placed)

/-- The loop of `FlowedState::from`, threading the cursor. -/
def flowLoop (cfg : PackingConfig) (c : FlowCursor) : List Patch → List Patch
  | [] => []
  | p :: rest =>
    let s := flowStep cfg c p
    s.2 :: flowLoop cfg s.1 rest

/-- `FlowedState::from` (`src/main.rs:216-254`): the cursor starts at
`(padding, padding)` with `row_height = 0` on row `0`. -/
def flowedFrom (cfg : PackingConfig) (l : List Patch) : List Patch :=
  flowLoop cfg ⟨cfg.padding, cfg.padding, 0, 0⟩ l

/-- The probe rectangle built by `PackedUpwardsState::from`
(`src/main.rs:282-289`): `test_height = patch.top() - 1`, centered at
`(patch.center.x, test_height / 2)` with extent
`(patch.width(), test_height)`. -/
def packProbe (p : Patch) : Patch :=
  let test_height := p.top - 1
  { id := -1
    center := ⟨p.center.x, test_height / 2⟩
    extent := ⟨p.width, test_height⟩
    rotation := Rot.r0 }

/-- `PackedUpwardsState::find_intersections`. -/
def find_intersections (test : Patch) (among : List Patch) : List Patch :=
  among.filter fun p => test.overlaps p

/-- The loop of `PackedUpwardsState::from` (`src/main.rs:279-296`), with the
`result` vector as the accumulator: `bottom` starts at `0.` and is maxed
with each intersecting candidate's bottom edge; the patch is re-emitted at
`(patch.left(), bottom + padding)`. -/
def packLoop (padding : ℚ) (result : List Patch) : List Patch → List Patch
  | [] => result
  | p :: rest =>
    let test := packProbe p
    let bot := (find_intersections test result).foldl (fun b c => max b c.bottom) 0
    packLoop padding (result ++ [p.with_left_and_top p.left (bot + padding)]) rest

/-- `PackedUpwardsState::from` (`src/main.rs:278-306`). -/
def packedFrom (padding : ℚ) (l : List Patch) : List Patch :=
  packLoop padding [] l

/-- The closed set of pipeline states (`trait State` has exactly five
implementors), each carrying its patch list and the configuration. -/
inductive PipelineState where
  | initial (patches : List Patch) (config : PackingConfig)
  | uprighted (patches : List Patch) (config : PackingConfig)
  | sortedByHeight (patches : List Patch) (config : PackingConfig)
  | flowed (patches : List Patch) (config : PackingConfig)
  | packedUpwards (patches : List Patch) (config : PackingConfig)
deriving DecidableEq, Repr

namespace PipelineState

/-- `State::patches`. -/
def patches : PipelineState → List Patch
  | .initial ps _ => ps
  | .uprighted ps _ => ps
  | .sortedByHeight ps _ => ps
  | .flowed ps _ => ps
  | .packedUpwards ps _ => ps

/-- `State::next`: each stage builds the following one from its own patch
list; `PackedUpwardsState::next` returns `None`. -/
def next : PipelineState → Option PipelineState
  | .initial ps cfg => some (.uprighted (uprightPatches ps) cfg)
  | .uprighted ps cfg => some (.sortedByHeight (sortedByHeightFrom cfg.padding ps) cfg)
  | .sortedByHeight ps cfg => some (.flowed (flowedFrom cfg ps) cfg)
  | .flowed ps cfg => some (.packedUpwards (packedFrom cfg.padding ps) cfg)
  | .packedUpwards _ _ => none

/-- The advance signal as handled by the main loop
(`src/main.rs:406-412`): `if let Some(new_state) = state.next()` replaces
the state, otherwise the state is kept. -/
def advance (s : PipelineState) : PipelineState := (next s).getD s

end PipelineState

/-! ### Claim C10: the overlap test is inclusive at boundaries -/

/-- Claim C10: `Patch::overlaps` holds exactly when
`p.left <= q.right`, `p.right >= q.left`, `p.top <= q.bottom` and
`p.bottom >= q.top`; consequently two boxes whose edges exactly touch
(zero separation) are reported as overlapping. -/
theorem overlaps_inclusive_characterization :
    (∀ p q : Patch, p.overlaps q = true ↔
      p.left ≤ q.right ∧ p.right ≥ q.left ∧ p.top ≤ q.bottom ∧ p.bottom ≥ q.top) ∧
    (∀ p q : Patch, 0 ≤ p.width → 0 ≤ q.width → p.right = q.left →
      p.top ≤ q.bottom → p.bottom ≥ q.top → p.overlaps q = true) := by
  refine ⟨Patch.overlaps_eq_true_iff, fun p q hwp0 hwq0 hx hy1 hy2 => ?_⟩
  rw [Patch.overlaps_eq_true_iff]
  refine ⟨?_, le_of_eq hx.symm, hy1, hy2⟩
  have hwq : q.left + q.width = q.right := q.left_add_width
  have hwp : p.left + p.width = p.right := p.left_add_width
  linarith

/-- Two unit squares whose vertical edges exactly touch. -/
def touchA : Patch := ⟨0, ⟨0, 0⟩, ⟨2, 2⟩, Rot.r0⟩

/-- A second square, to the right of `touchA`, sharing its right edge. -/
def touchB : Patch := ⟨1, ⟨2, 0⟩, ⟨2, 2⟩, Rot.r0⟩

/-- Witness for C10: the touching squares are reported as overlapping. -/
theorem overlaps_inclusive_characterization_witness :
    touchA.overlaps touchB = true :=
  overlaps_inclusive_characterization.2 touchA touchB
    (by norm_num [touchA, touchB, Patch.width])
    (by norm_num [touchA, touchB, Patch.width])
    (by norm_num [touchA, touchB, Patch.right, Patch.left])
    (by norm_num [touchA, touchB, Patch.top, Patch.bottom])
    (by norm_num [touchA, touchB, Patch.top, Patch.bottom])

/-! ### Claim C7: uprighting -/

theorem uprighted_id (p : Patch) : p.uprighted.id = p.id := by
  unfold Patch.uprighted; split <;> rfl

theorem uprighted_width_le_height (p : Patch) : p.uprighted.width ≤ p.uprighted.height := by
  unfold Patch.uprighted
  split
  · next h => exact le_of_lt h
  · next h => exact le_of_not_lt h

theorem uprighted_uprighted (p : Patch) : p.uprighted.uprighted = p.uprighted := by
  unfold Patch.uprighted
  split
  · next h =>
    simp only [Patch.width, Patch.height] at h ⊢
    rw [if_neg (by exact lt_asymm h)]
  · rfl

/-- Claim C7: uprighting maps each patch independently (swapping width and
height and setting rotation to 90° exactly when `width > height`, otherwise
passing the patch through unchanged), is idempotent on lists, and leaves
every output patch with `height >= width`. -/
theorem uprighting_characterization :
    (∀ p : Patch, p.uprighted =
      if p.width > p.height then
        { id := p.id, center := p.center, extent := ⟨p.height, p.width⟩,
          rotation := Rot.r90 }
      else p) ∧
    (∀ l : List Patch, uprightPatches (uprightPatches l) = uprightPatches l) ∧
    (∀ l : List Patch, ∀ q ∈ uprightPatches l, q.width ≤ q.height) := by
  refine ⟨fun p => rfl, fun l => ?_, fun l q hq => ?_⟩
  · unfold uprightPatches
    rw [List.map_map]
    exact List.map_congr_left fun p _ => uprighted_uprighted p
  · unfold uprightPatches at hq
    obtain ⟨p, _, rfl⟩ := List.mem_map.1 hq
    exact uprighted_width_le_height p

/-- Witness for C7: a concrete wide patch is rotated upright, and the list
facts hold on a concrete list. -/
theorem uprighting_characterization_witness :
    uprightPatches (uprightPatches [touchA]) = uprightPatches [touchA] ∧
    ∀ q ∈ uprightPatches [touchA], q.width ≤ q.height :=
  ⟨uprighting_characterization.2.1 [touchA],
    fun q hq => uprighting_characterization.2.2 [touchA] q hq⟩

/-! ### Claim C9: terminal advance is ignored -/

/-- Claim C9: from the terminal PackedUpwards state every advance signal is
ignored: iterating advance any number of times returns the terminal state
itself, and the patch list is unchanged every time. -/
theorem terminal_advance_idempotent (ps : List Patch) (cfg : PackingConfig) (n : ℕ) :
    PipelineState.advance^[n] (PipelineState.packedUpwards ps cfg) =
      PipelineState.packedUpwards ps cfg ∧
    (PipelineState.advance^[n] (PipelineState.packedUpwards ps cfg)).patches = ps := by
  have hstep : PipelineState.advance (PipelineState.packedUpwards ps cfg) =
      PipelineState.packedUpwards ps cfg := rfl
  have hfix : PipelineState.advance^[n] (PipelineState.packedUpwards ps cfg) =
      PipelineState.packedUpwards ps cfg := by
    induction n with
    | zero => rfl
    | succ k ih => rw [Function.iterate_succ_apply, hstep, ih]
  exact ⟨hfix, by rw [hfix]; rfl⟩

/-! ### Claim C5: the height-sort stage -/

instance : IsTotal Patch fun a b => b.height ≤ a.height :=
  ⟨fun a b => le_total b.height a.height⟩

instance : IsTrans Patch fun a b => b.height ≤ a.height :=
  ⟨fun _ _ _ hab hbc => le_trans hbc hab⟩

/-- Closed form of the placement loop of `SortedByHeightState::from`: place
the patches left to right starting at left edge `x`, all at top `padding`,
each one `padding` to the right of the previous one's right edge. -/
def placeRow (padding x : ℚ) : List Patch → List Patch
  | [] => []
  | p :: rest => p.with_left_and_top x padding :: placeRow padding (x + p.width + padding) rest

/-- The starting left edge the arrangement loop uses given the patches
already arranged. -/
def nextLeft (padding : ℚ) (arranged : List Patch) : ℚ :=
  match arranged.getLast? with
  | some last => last.right + padding
  | none => padding

theorem arrangeLoop_eq (padding : ℚ) :
    ∀ (l acc : List Patch),
      arrangeLoop padding acc l = acc ++ placeRow padding (nextLeft padding acc) l := by
  intro l
  induction l with
  | nil => intro acc; simp [arrangeLoop, placeRow]
  | cons p rest ih =>
    intro acc
    rw [arrangeLoop]
    have hplaced : (match acc.getLast? with
        | some last => p.with_left_and_top (last.right + padding) padding
        | none => p.with_left_and_top padding padding) =
        p.with_left_and_top (nextLeft padding acc) padding := by
      unfold nextLeft
      cases acc.getLast? <;> rfl
    rw [hplaced, ih]
    have hlast : nextLeft padding (acc ++ [p.with_left_and_top (nextLeft padding acc) padding]) =
        nextLeft padding acc + p.width + padding := by
      unfold nextLeft
      rw [List.getLast?_concat]
      simp [add_assoc]
    rw [hlast, placeRow]
    simp

theorem placeRow_length (padding x : ℚ) (l : List Patch) :
    (placeRow padding x l).length = l.length := by
  induction l generalizing x with
  | nil => rfl
  | cons p rest ih => simp [placeRow, ih]

theorem placeRow_map_height (padding x : ℚ) (l : List Patch) :
    (placeRow padding x l).map Patch.height = l.map Patch.height := by
  induction l generalizing x with
  | nil => rfl
  | cons p rest ih => simp [placeRow, ih]

theorem placeRow_map_id (padding x : ℚ) (l : List Patch) :
    (placeRow padding x l).map Patch.id = l.map Patch.id := by
  induction l generalizing x with
  | nil => rfl
  | cons p rest ih => simp [placeRow, ih]

theorem placeRow_top (padding x : ℚ) (l : List Patch) :
    ∀ q ∈ placeRow padding x l, q.top = padding := by
  induction l generalizing x with
  | nil => simp [placeRow]
  | cons p rest ih =>
    intro q hq
    rcases List.mem_cons.1 hq with h | h
    · rw [h]; simp
    · exact ih _ q h

theorem placeRow_get_zero (padding x : ℚ) (l : List Patch)
    (h0 : 0 < (placeRow padding x l).length) :
    ((placeRow padding x l).get ⟨0, h0⟩).left = x := by
  cases l with
  | nil => simp [placeRow] at h0
  | cons p rest => simp [placeRow]

theorem placeRow_chain (padding x : ℚ) (l : List Patch) :
    (placeRow padding x l).Chain' fun a b => b.left = a.right + padding := by
  induction l generalizing x with
  | nil => simp [placeRow]
  | cons p rest ih =>
    rw [placeRow]
    cases rest with
    | nil => simp [placeRow]
    | cons q rest' =>
      refine List.Chain'.cons ?_ (ih _)
      simp [placeRow, add_assoc]

/-- Claim C5: the height-sort stage orders patches by height descending and
places them in a single row: first left edge `padding`, each next left edge
the previous right edge plus `padding`, every top edge `padding`. -/
theorem sorted_by_height_stage (l : List Patch) (padding : ℚ) (hpad : 0 ≤ padding) :
    ((sortedByHeightFrom padding l).Pairwise fun a b => b.height ≤ a.height) ∧
    (∀ h0 : 0 < (sortedByHeightFrom padding l).length,
      ((sortedByHeightFrom padding l).get ⟨0, h0⟩).left = padding) ∧
    (∀ (i : ℕ) (hi : i < (sortedByHeightFrom padding l).length - 1),
      ((sortedByHeightFrom padding l).get ⟨i + 1, by omega⟩).left =
        ((sortedByHeightFrom padding l).get ⟨i, by omega⟩).right + padding) ∧
    (∀ q ∈ sortedByHeightFrom padding l, q.top = padding) := by
  have hout : sortedByHeightFrom padding l =
      placeRow padding padding (sortPatchesByHeight l) := by
    unfold sortedByHeightFrom
    rw [arrangeLoop_eq]
    rfl
  refine ⟨?_, ?_, ?_, ?_⟩
  · have hsorted : (sortPatchesByHeight l).Pairwise fun a b => b.height ≤ a.height :=
      List.sorted_insertionSort _ l
    have hmap := placeRow_map_height padding padding (sortPatchesByHeight l)
    rw [hout]
    have h1 : ((placeRow padding padding (sortPatchesByHeight l)).map Patch.height).Pairwise
        fun a b => (b : ℚ) ≤ a := by
      rw [hmap, List.pairwise_map]
      exact hsorted
    rw [List.pairwise_map] at h1
    exact h1
  · rw [hout]
    intro h0
    exact placeRow_get_zero padding padding _ h0
  · rw [hout]
    intro i hi
    have hchain := placeRow_chain padding padding (sortPatchesByHeight l)
    rw [List.chain'_iff_get] at hchain
    exact hchain i hi
  · intro q hq
    rw [hout] at hq
    exact placeRow_top padding padding _ q hq

/-- Witness for C5 at a concrete two-patch list with padding 1. -/
theorem sorted_by_height_stage_witness :
    (0 : ℚ) ≤ 1 ∧
    ((sortedByHeightFrom 1 [touchA, touchB]).Pairwise fun a b => b.height ≤ a.height) ∧
    (∀ q ∈ sortedByHeightFrom 1 [touchA, touchB], q.top = 1) :=
  ⟨by norm_num,
    (sorted_by_height_stage [touchA, touchB] 1 (by norm_num)).1,
    (sorted_by_height_stage [touchA, touchB] 1 (by norm_num)).2.2.2⟩

/-! ### Claim C4: every stage preserves the set of ids -/

theorem flowLoop_map_id (cfg : PackingConfig) :
    ∀ (l : List Patch) (c : FlowCursor),
      (flowLoop cfg c l).map Patch.id = l.map Patch.id := by
  intro l
  induction l with
  | nil => intro c; rfl
  | cons p rest ih =>
    intro c
    simp [flowLoop, flowStep, ih]

theorem packLoop_map_id (padding : ℚ) :
    ∀ (l acc : List Patch),
      (packLoop padding acc l).map Patch.id = acc.map Patch.id ++ l.map Patch.id := by
  intro l
  induction l with
  | nil => intro acc; simp [packLoop]
  | cons p rest ih =>
    intro acc
    rw [packLoop, ih]
    simp

/-- The id bookkeeping a stage must respect: same cardinality, same
multiset of ids, no duplicate ids. -/
def preservesIds (input output : List Patch) : Prop :=
  output.length = input.length ∧
  (output.map Patch.id).Perm (input.map Patch.id) ∧
  (output.map Patch.id).Nodup

theorem preservesIds_of_map_eq {input output : List Patch}
    (h : output.map Patch.id = input.map Patch.id)
    (hlen : output.length = input.length)
    (hnd : (input.map Patch.id).Nodup) : preservesIds input output :=
  ⟨hlen, h ▸ List.Perm.refl _, h ▸ hnd⟩

/-- Claim C4: each of the four stage transforms (Uprighting, Height-sort
placement, Row-flow placement, Upward compaction) preserves the set of
patch ids exactly: same cardinality, no duplicate ids, exactly the input's
ids. -/
theorem stage_ids_invariant (l : List Patch) (cfg : PackingConfig)
    (hnd : (l.map Patch.id).Nodup) :
    preservesIds l (uprightPatches l) ∧
    preservesIds l (sortedByHeightFrom cfg.padding l) ∧
    preservesIds l (flowedFrom cfg l) ∧
    preservesIds l (packedFrom cfg.padding l) := by
  refine ⟨?_, ?_, ?_, ?_⟩
  · refine preservesIds_of_map_eq ?_ (by simp [uprightPatches]) hnd
    unfold uprightPatches
    rw [List.map_map]
    exact List.map_congr_left fun p _ => uprighted_id p
  · have hform : sortedByHeightFrom cfg.padding l =
        placeRow cfg.padding cfg.padding (sortPatchesByHeight l) := by
      unfold sortedByHeightFrom
      rw [arrangeLoop_eq]
      rfl
    have hperm : ((sortedByHeightFrom cfg.padding l).map Patch.id).Perm (l.map Patch.id) := by
      rw [hform, placeRow_map_id]
      exact (List.perm_insertionSort _ l).map Patch.id
    refine ⟨?_, hperm, hperm.nodup_iff.mpr hnd⟩
    have := hperm.length_eq
    simpa using this
  · exact preservesIds_of_map_eq (flowLoop_map_id cfg l _)
      (by have := congrArg List.length (flowLoop_map_id cfg l ⟨cfg.padding, cfg.padding, 0, 0⟩)
          simpa [flowedFrom] using this) hnd
  · refine preservesIds_of_map_eq ?_ ?_ hnd
    · have := packLoop_map_id cfg.padding l []
      simpa [packedFrom] using this
    · have := congrArg List.length (packLoop_map_id cfg.padding l [])
      simpa [packedFrom] using this

/-- Witness for C4 at a concrete two-patch list. -/
theorem stage_ids_invariant_witness :
    ([touchA, touchB].map Patch.id).Nodup ∧
    preservesIds [touchA, touchB] (uprightPatches [touchA, touchB]) :=
  ⟨by decide, (stage_ids_invariant [touchA, touchB] ⟨100, 100, 1⟩ (by decide)).1⟩

/-! ### Claim C6: row-flow width bound -/

theorem flowLoop_width_bound (cfg : PackingConfig) (hpad : 0 ≤ cfg.padding) :
    ∀ (l : List Patch) (c : FlowCursor),
      (c.row % 2 = 1 → c.x ≤ cfg.width - cfg.padding) →
      (∀ p ∈ l, 0 < p.width ∧ p.width ≤ cfg.width - 2 * cfg.padding) →
      ∀ q ∈ flowLoop cfg c l, q.left + q.width ≤ cfg.width := by
  intro l
  induction l with
  | nil => intro c _ _ q hq; simp [flowLoop] at hq
  | cons p rest ih =>
    intro c hinv hext q hq
    obtain ⟨hw0, hwW⟩ := hext p (List.mem_cons_self p rest)
    have hext' : ∀ p' ∈ rest, 0 < p'.width ∧ p'.width ≤ cfg.width - 2 * cfg.padding :=
      fun p' hp' => hext p' (List.mem_cons_of_mem p hp')
    rw [flowLoop] at hq
    by_cases h0 : c.row % 2 = 0
    · by_cases hwrap : c.x + p.width > cfg.width
      · have hodd : ¬((c.row + 1) % 2 = 0) := by omega
        have hstep : flowStep cfg c p =
            (⟨cfg.width - cfg.padding - p.width, c.y + c.row_height,
              max 0 (p.height + cfg.padding), c.row + 1⟩,
             p.with_left_and_top (cfg.width - cfg.padding - p.width) (c.y + c.row_height)) := by
          simp [flowStep, h0, hwrap, hodd]
        rw [hstep] at hq
        rcases List.mem_cons.1 hq with h | h
        · subst h; simp; linarith
        · exact ih _ (fun _ => by simp; linarith) hext' q h
      · have hstep : flowStep cfg c p =
            (⟨c.x + (p.width + cfg.padding), c.y,
              max c.row_height (p.height + cfg.padding), c.row⟩,
             p.with_left_and_top c.x c.y) := by
          simp [flowStep, h0, hwrap]
        rw [hstep] at hq
        rcases List.mem_cons.1 hq with h | h
        · subst h; simp; linarith
        · refine ih _ (fun hrow => absurd h0 ?_) hext' q h
          have hrow' : c.row % 2 = 1 := hrow
          omega
    · have h1 : c.row % 2 = 1 := by omega
      have hxc := hinv h1
      by_cases hwrap : c.x - (p.width + cfg.padding) < cfg.padding
      · have heven : (c.row + 1) % 2 = 0 := by omega
        have hstep : flowStep cfg c p =
            (⟨cfg.padding + (p.width + cfg.padding), c.y + c.row_height,
              max 0 (p.height + cfg.padding), c.row + 1⟩,
             p.with_left_and_top cfg.padding (c.y + c.row_height)) := by
          simp [flowStep, h0, hwrap, heven]
        rw [hstep] at hq
        rcases List.mem_cons.1 hq with h | h
        · subst h; simp; linarith
        · refine ih _ (fun hrow => ?_) hext' q h
          simp at hrow
          omega
      · have hstep : flowStep cfg c p =
            (⟨c.x - (p.width + cfg.padding), c.y,
              max c.row_height (p.height + cfg.padding), c.row⟩,
             p.with_left_and_top (c.x - (p.width + cfg.padding)) c.y) := by
          simp [flowStep, h0, hwrap]
        rw [hstep] at hq
        rcases List.mem_cons.1 hq with h | h
        · subst h; simp; linarith
        · refine ih _ (fun _ => by simp; linarith) hext' q h

/-- Claim C6: if every input patch satisfies `width <= W - 2*padding` (and has
positive width, with `padding >= 0`, per the data-model invariants), then no
patch in the Flowed output overflows the canvas: `left + width <= W`. -/
theorem flowed_width_bound (cfg : PackingConfig) (l : List Patch)
    (hpad : 0 ≤ cfg.padding)
    (hext : ∀ p ∈ l, 0 < p.width ∧ p.width ≤ cfg.width - 2 * cfg.padding) :
    ∀ q ∈ flowedFrom cfg l, q.left + q.width ≤ cfg.width := by
  unfold flowedFrom
  exact flowLoop_width_bound cfg hpad l _ (fun h => by simp at h) hext

/-- Witness for C6 at a concrete list and configuration. -/
theorem flowed_width_bound_witness :
    (0 : ℚ) ≤ 1 ∧
    (∀ p ∈ [touchA, touchB], 0 < p.width ∧ p.width ≤ (100 : ℚ) - 2 * 1) ∧
    ∀ q ∈ flowedFrom ⟨100, 100, 1⟩ [touchA, touchB], q.left + q.width ≤ (100 : ℚ) :=
  ⟨by norm_num,
    by intro p hp; fin_cases hp <;> norm_num [touchA, touchB, Patch.width],
    flowed_width_bound ⟨100, 100, 1⟩ [touchA, touchB] (by norm_num)
      (by intro p hp; fin_cases hp <;> norm_num [touchA, touchB, Patch.width])⟩

/-! ### Claim C2: characterization of the compaction pass -/

/-- The compaction loop rewritten with the already-emitted prefix as an
explicit parameter (equal to `packLoop` by `packLoop_eq_append`). -/
def packAux (padding : ℚ) (emitted : List Patch) : List Patch → List Patch
  | [] => []
  | p :: rest =>
    let placed := p.with_left_and_top p.left
      ((find_intersections (packProbe p) emitted).foldl (fun b c => max b c.bottom) 0 + padding)
    placed :: packAux padding (emitted ++ [placed]) rest

theorem packLoop_eq_append (padding : ℚ) :
    ∀ (l acc : List Patch), packLoop padding acc l = acc ++ packAux padding acc l := by
  intro l
  induction l with
  | nil => intro acc; simp [packLoop, packAux]
  | cons p rest ih =>
    intro acc
    rw [packLoop, packAux, ih]
    simp

/-- The probe-overlap condition as the claim states it: the probe region
spans `p`'s horizontal extent and runs vertically from the canvas top
(`y = 0`) to just above `p`'s current top edge (`p.top() - 1`), compared to
`e`'s bounding box with the inclusive axis-aligned overlap test. -/
def specProbeOverlaps (p e : Patch) : Bool :=
  decide (p.left ≤ e.right) && decide (e.left ≤ p.right) &&
    decide ((0 : ℚ) ≤ e.bottom) && decide (e.top ≤ p.top - 1)

/-- `restingY` as the claim states it: the maximum bottom edge among
already-emitted patches overlapping the probe region, maxed with `0` (the
spec's `restingY = max(bottom edge of each overlapping candidate, 0)`). -/
def specRestingY (emitted : List Patch) (p : Patch) : ℚ :=
  ((emitted.filter fun e => specProbeOverlaps p e).map Patch.bottom).foldl max 0

theorem packProbe_overlaps_eq (p e : Patch) :
    (packProbe p).overlaps e = specProbeOverlaps p e := by
  rw [Bool.eq_iff_iff, Patch.overlaps_eq_true_iff]
  have h1 : (packProbe p).left = p.left := by
    simp [packProbe, Patch.left, Patch.width]
  have h2 : (packProbe p).right = p.right := by
    simp [packProbe, Patch.right, Patch.width]
  have h3 : (packProbe p).top = 0 := by
    simp only [packProbe, Patch.top]
    ring
  have h4 : (packProbe p).bottom = p.top - 1 := by
    simp only [packProbe, Patch.bottom, Patch.top]
    ring
  rw [h1, h2, h3, h4]
  simp [specProbeOverlaps, ge_iff_le, and_assoc]

theorem foldl_max_bottom_eq (lst : List Patch) (init : ℚ) :
    lst.foldl (fun b c => max b c.bottom) init = (lst.map Patch.bottom).foldl max init := by
  induction lst generalizing init with
  | nil => rfl
  | cons a as ih => simp [ih]

theorem find_intersections_eq_filter (p : Patch) (emitted : List Patch) :
    find_intersections (packProbe p) emitted =
      emitted.filter fun e => specProbeOverlaps p e := by
  unfold find_intersections
  exact List.filter_congr fun e _ => packProbe_overlaps_eq p e

theorem pack_bottom_eq_specRestingY (p : Patch) (emitted : List Patch) :
    (find_intersections (packProbe p) emitted).foldl (fun b c => max b c.bottom) 0 =
      specRestingY emitted p := by
  rw [find_intersections_eq_filter, foldl_max_bottom_eq, specRestingY]

theorem packAux_length (padding : ℚ) :
    ∀ (l emitted : List Patch), (packAux padding emitted l).length = l.length := by
  intro l
  induction l with
  | nil => intro emitted; rfl
  | cons p rest ih => intro emitted; simp [packAux, ih]

theorem packAux_get? (padding : ℚ) :
    ∀ (l emitted : List Patch) (i : ℕ) (p : Patch),
      l.get? i = some p →
      (packAux padding emitted l).get? i =
        some (p.with_left_and_top p.left
          (specRestingY (emitted ++ (packAux padding emitted l).take i) p + padding)) := by
  intro l
  induction l with
  | nil => intro emitted i p hp; simp at hp
  | cons q rest ih =>
    intro emitted i p hp
    cases i with
    | zero =>
      rw [List.get?_cons_zero] at hp
      injection hp with hp
      subst hp
      rw [packAux]
      simp only [List.get?_cons_zero, List.take_zero, List.append_nil]
      rw [pack_bottom_eq_specRestingY]
    | succ j =>
      rw [List.get?_cons_succ] at hp
      rw [packAux]
      simp only [List.get?_cons_succ, List.take_succ_cons]
      rw [ih _ j p hp]
      congr 2
      conv_rhs => rw [List.append_cons]

/-- Claim C2: the compaction pass processes the input strictly in order and
emits, at each index, the input patch with its horizontal position
unchanged and its new top edge at `restingY + padding`, where `restingY`
is the maximum bottom edge (maxed with 0) among already-emitted patches
overlapping the probe region spanning the patch's horizontal extent from
`y = 0` to `p.top() - 1`; the output has the input's cardinality. -/
theorem packed_upwards_characterization (padding : ℚ) (l : List Patch) :
    (packedFrom padding l).length = l.length ∧
    ∀ (i : ℕ) (p : Patch), l.get? i = some p →
      (packedFrom padding l).get? i =
        some (p.with_left_and_top p.left
          (specRestingY ((packedFrom padding l).take i) p + padding)) := by
  have hform : packedFrom padding l = packAux padding [] l := by
    unfold packedFrom
    rw [packLoop_eq_append]
    rfl
  rw [hform]
  refine ⟨packAux_length padding l [], fun i p hp => ?_⟩
  simpa using packAux_get? padding l [] i p hp

/-- Witness for C2 at a concrete one-patch input. -/
theorem packed_upwards_characterization_witness :
    (packedFrom 1 [touchA]).length = 1 ∧
    (packedFrom 1 [touchA]).get? 0 =
      some (touchA.with_left_and_top touchA.left
        (specRestingY ((packedFrom 1 [touchA]).take 0) touchA + 1)) :=
  ⟨(packed_upwards_characterization 1 [touchA]).1,
    (packed_upwards_characterization 1 [touchA]).2 0 touchA rfl⟩

/-! ### Claim C8: degenerate construction inputs -/

/-- Claim C8 counterexample: `InitialState::new` performs no validation.
Constructed with the degenerate canvas width `-10` (and `cols = rows = 1`,
zero random samples), it does not reject the input: it returns a patch
whose width is `-5`, a non-positive extent. -/
theorem initial_no_rejection_counterexample :
    InitialState.new ⟨-10, 10, 0⟩ 1 1 (fun _ => 0) =
      [⟨0, ⟨-5, 5⟩, ⟨-5, 5⟩, Rot.r0⟩] ∧
    ((⟨0, ⟨-5, 5⟩, ⟨-5, 5⟩, Rot.r0⟩ : Patch).width < 0) := by
  constructor
  · simp only [InitialState.new, genRange]
    norm_num [List.range_succ, Patch.mk.injEq, Vec2.mk.injEq]
  · norm_num [Patch.width]

/-- Claim C8 amended: construction never rejects its inputs.  `cols <= 0` or
`rows <= 0` silently yield an empty patch list, and a negative canvas width
with a valid grid yields patches of negative width (for any unit random
samples) instead of a configuration error. -/
theorem initial_construction_total (cfg : PackingConfig) (cols rows : ℤ) (rand : ℕ → ℚ) :
    (cols ≤ 0 ∨ rows ≤ 0 → InitialState.new cfg cols rows rand = []) ∧
    (cfg.width < 0 → 0 < cols → (∀ n, 0 ≤ rand n ∧ rand n ≤ 1) →
      ∀ p ∈ InitialState.new cfg cols rows rand, p.width < 0) := by
  constructor
  · rintro (h | h)
    · have : cols.toNat = 0 := Int.toNat_of_nonpos h
      simp [InitialState.new, this]
    · have : rows.toNat = 0 := Int.toNat_of_nonpos h
      simp [InitialState.new, this]
  · intro hW hcols hrand p hp
    have hcw : cfg.width / (cols : ℚ) < 0 := by
      apply div_neg_of_neg_of_pos hW
      exact_mod_cast hcols
    simp only [InitialState.new, List.mem_flatMap, List.mem_map, List.mem_range] at hp
    obtain ⟨row, _, col, _, rfl⟩ := hp
    simp only [Patch.width, genRange]
    set r := rand (2 * (row * cols.toNat + col)) with hr
    have hr0 : 0 ≤ r := (hrand _).1
    have hprod : r * (cfg.width / (cols : ℚ)) ≤ 0 :=
      mul_nonpos_of_nonneg_of_nonpos hr0 hcw.le
    nlinarith [hcw, hprod]

/-- Witness for C8 (amended): a degenerate grid yields an empty list, and a
negative canvas width yields negative-width patches. -/
theorem initial_construction_total_witness :
    InitialState.new ⟨10, 10, 1⟩ 0 5 (fun _ => 0) = [] ∧
    ∀ p ∈ InitialState.new ⟨-10, 10, 0⟩ 1 1 (fun _ => 1 / 2), p.width < 0 :=
  ⟨(initial_construction_total ⟨10, 10, 1⟩ 0 5 (fun _ => 0)).1 (Or.inl (by norm_num)),
    (initial_construction_total ⟨-10, 10, 0⟩ 1 1 (fun _ => 1 / 2)).2 (by norm_num)
      (by norm_num) (fun n => by norm_num)⟩

/-! ### Claims C1 and C3: structure of the flowed layout -/

/-- Inclusive overlap of the horizontal extents of two patches. -/
def xOverlap (a b : Patch) : Prop := a.left ≤ b.right ∧ b.left ≤ a.right

/-- Horizontal separation by at least `pad` between the two patches. -/
def xSep (pad : ℚ) (a b : Patch) : Prop :=
  a.right + pad ≤ b.left ∨ b.right + pad ≤ a.left

/-- What the row flow guarantees between a patch `a` placed earlier and a
patch `b` placed later: either `a` lies a full row above `b` (its bottom
plus padding is above `b`'s top), or the two are horizontally separated by
at least the padding. -/
def FlowRel (pad : ℚ) (a b : Patch) : Prop :=
  a.bottom + pad ≤ b.top ∨ xSep pad a b

/-- Invariant tying the flow cursor to the patches placed so far: the
cursor's `y` is below the top padding line, and every placed patch either
sits in the current row (top equal to the cursor `y`, its height accounted
in `row_height`, and on the correct side of the cursor `x` for the current
direction) or in a finished row wholly above the cursor. -/
def FlowInv (cfg : PackingConfig) (c : FlowCursor) (P : List Patch) : Prop :=
  cfg.padding ≤ c.y ∧ 0 ≤ c.row_height ∧
  ∀ q ∈ P, 0 < q.height ∧
    ((q.top = c.y ∧ q.height + cfg.padding ≤ c.row_height ∧
        (if c.row % 2 = 0 then q.right + cfg.padding ≤ c.x else c.x ≤ q.left)) ∨
      (q.bottom + cfg.padding ≤ c.y ∧ q.top < c.y))

theorem flowLoop_struct (cfg : PackingConfig) (hpad : 0 ≤ cfg.padding) :
    ∀ (l : List Patch) (c : FlowCursor) (P : List Patch),
      (∀ p ∈ l, 0 < p.width ∧ 0 < p.height) →
      FlowInv cfg c P →
      (∀ q ∈ P, ∀ f ∈ flowLoop cfg c l, FlowRel cfg.padding q f) ∧
      (flowLoop cfg c l).Pairwise (FlowRel cfg.padding) ∧
      (∀ f ∈ flowLoop cfg c l, cfg.padding ≤ f.top ∧ 0 < f.height) := by
  intro l
  induction l with
  | nil =>
    intro c P _ _
    refine ⟨fun q _ f hf => ?_, ?_, fun f hf => ?_⟩ <;> simp [flowLoop] at *
  | cons p rest ih =>
    intro c P hext hinv
    obtain ⟨hcy, hrh, hP⟩ := hinv
    obtain ⟨hw0, hh0⟩ := hext p (List.mem_cons_self p rest)
    have hext' : ∀ p' ∈ rest, 0 < p'.width ∧ 0 < p'.height :=
      fun p' hp' => hext p' (List.mem_cons_of_mem p hp')
    -- Resolve the branch taken by `flowStep` and establish, in each case,
    -- the relation of the new patch to the already placed ones and the
    -- invariant for the advanced cursor.
    by_cases h0 : c.row % 2 = 0
    · by_cases hwrap : c.x + p.width > cfg.width
      · -- even row, wrap: place at the right margin of a fresh row
        have hodd : ¬((c.row + 1) % 2 = 0) := by omega
        have hstep : flowStep cfg c p =
            (⟨cfg.width - cfg.padding - p.width, c.y + c.row_height,
              max 0 (p.height + cfg.padding), c.row + 1⟩,
             p.with_left_and_top (cfg.width - cfg.padding - p.width)
               (c.y + c.row_height)) := by
          simp [flowStep, h0, hwrap, hodd]
        set placed := p.with_left_and_top (cfg.width - cfg.padding - p.width)
          (c.y + c.row_height) with hplaced
        have hrel : ∀ q ∈ P, FlowRel cfg.padding q placed := by
          intro q hq
          obtain ⟨hqh, hqc⟩ := hP q hq
          left
          rcases hqc with ⟨ht, hhr, _⟩ | ⟨hb, _⟩
          · have := q.top_add_height
            simp only [hplaced, Patch.with_left_and_top_top]
            linarith
          · simp only [hplaced, Patch.with_left_and_top_top]
            linarith
        have hinv' : FlowInv cfg
            ⟨cfg.width - cfg.padding - p.width, c.y + c.row_height,
              max 0 (p.height + cfg.padding), c.row + 1⟩ (P ++ [placed]) := by
          refine ⟨by simp; linarith, le_max_left _ _, ?_⟩
          intro q hq
          rcases List.mem_append.1 hq with hq | hq
          · obtain ⟨hqh, hqc⟩ := hP q hq
            refine ⟨hqh, Or.inr ?_⟩
            rcases hqc with ⟨ht, hhr, _⟩ | ⟨hb, ht⟩
            · have := q.top_add_height
              constructor <;> simp <;> linarith
            · constructor <;> simp <;> linarith
          · rw [List.mem_singleton] at hq
            subst hq
            refine ⟨by simp [hplaced, hh0], Or.inl ⟨by simp [hplaced], le_max_right _ _, ?_⟩⟩
            rw [if_neg hodd]
            simp [hplaced]
        obtain ⟨ih1, ih2, ih3⟩ := ih _ _ hext' hinv'
        rw [flowLoop, hstep]
        refine ⟨fun q hq f hf => ?_, ?_, fun f hf => ?_⟩
        · rcases List.mem_cons.1 hf with rfl | hf
          · exact hrel q hq
          · exact ih1 q (List.mem_append_left _ hq) f hf
        · refine List.Pairwise.cons (fun f hf => ?_) ih2
          exact ih1 placed (List.mem_append_right _ (List.mem_singleton_self _)) f hf
        · rcases List.mem_cons.1 hf with rfl | hf
          · exact ⟨by simp [hplaced]; linarith, by simp [hplaced, hh0]⟩
          · exact ih3 f hf
      · -- even row, no wrap: place at the cursor and move right
        have hstep : flowStep cfg c p =
            (⟨c.x + (p.width + cfg.padding), c.y,
              max c.row_height (p.height + cfg.padding), c.row⟩,
             p.with_left_and_top c.x c.y) := by
          simp [flowStep, h0, hwrap]
        set placed := p.with_left_and_top c.x c.y with hplaced
        have hrel : ∀ q ∈ P, FlowRel cfg.padding q placed := by
          intro q hq
          obtain ⟨hqh, hqc⟩ := hP q hq
          rcases hqc with ⟨ht, hhr, hx⟩ | ⟨hb, _⟩
          · rw [if_pos h0] at hx
            right
            left
            simp [hplaced]
            linarith
          · left
            simp [hplaced]
            linarith
        have hinv' : FlowInv cfg
            ⟨c.x + (p.width + cfg.padding), c.y,
              max c.row_height (p.height + cfg.padding), c.row⟩ (P ++ [placed]) := by
          refine ⟨by simpa using hcy, le_trans hrh (le_max_left _ _), ?_⟩
          intro q hq
          rcases List.mem_append.1 hq with hq | hq
          · obtain ⟨hqh, hqc⟩ := hP q hq
            refine ⟨hqh, ?_⟩
            rcases hqc with ⟨ht, hhr, hx⟩ | ⟨hb, ht⟩
            · rw [if_pos h0] at hx
              refine Or.inl ⟨by simpa using ht, le_trans hhr (le_max_left _ _), ?_⟩
              rw [if_pos h0]
              simp
              linarith
            · exact Or.inr ⟨by simpa using hb, by simpa using ht⟩
          · rw [List.mem_singleton] at hq
            subst hq
            refine ⟨by simp [hplaced, hh0], Or.inl ⟨by simp [hplaced], le_max_right _ _, ?_⟩⟩
            rw [if_pos h0]
            simp [hplaced]
            linarith
        obtain ⟨ih1, ih2, ih3⟩ := ih _ _ hext' hinv'
        rw [flowLoop, hstep]
        refine ⟨fun q hq f hf => ?_, ?_, fun f hf => ?_⟩
        · rcases List.mem_cons.1 hf with rfl | hf
          · exact hrel q hq
          · exact ih1 q (List.mem_append_left _ hq) f hf
        · refine List.Pairwise.cons (fun f hf => ?_) ih2
          exact ih1 placed (List.mem_append_right _ (List.mem_singleton_self _)) f hf
        · rcases List.mem_cons.1 hf with rfl | hf
          · exact ⟨by simpa [hplaced] using hcy, by simp [hplaced, hh0]⟩
          · exact ih3 f hf
    · have h1 : c.row % 2 = 1 := by omega
      by_cases hwrap : c.x - (p.width + cfg.padding) < cfg.padding
      · -- odd row, wrap: place at the left margin of a fresh row
        have heven : (c.row + 1) % 2 = 0 := by omega
        have hstep : flowStep cfg c p =
            (⟨cfg.padding + (p.width + cfg.padding), c.y + c.row_height,
              max 0 (p.height + cfg.padding), c.row + 1⟩,
             p.with_left_and_top cfg.padding (c.y + c.row_height)) := by
          simp [flowStep, h0, hwrap, heven]
        set placed := p.with_left_and_top cfg.padding (c.y + c.row_height) with hplaced
        have hrel : ∀ q ∈ P, FlowRel cfg.padding q placed := by
          intro q hq
          obtain ⟨hqh, hqc⟩ := hP q hq
          left
          rcases hqc with ⟨ht, hhr, _⟩ | ⟨hb, _⟩
          · have := q.top_add_height
            simp only [hplaced, Patch.with_left_and_top_top]
            linarith
          · simp only [hplaced, Patch.with_left_and_top_top]
            linarith
        have hinv' : FlowInv cfg
            ⟨cfg.padding + (p.width + cfg.padding), c.y + c.row_height,
              max 0 (p.height + cfg.padding), c.row + 1⟩ (P ++ [placed]) := by
          refine ⟨by simp; linarith, le_max_left _ _, ?_⟩
          intro q hq
          rcases List.mem_append.1 hq with hq | hq
          · obtain ⟨hqh, hqc⟩ := hP q hq
            refine ⟨hqh, Or.inr ?_⟩
            rcases hqc with ⟨ht, hhr, _⟩ | ⟨hb, ht⟩
            · have := q.top_add_height
              constructor <;> simp <;> linarith
            · constructor <;> simp <;> linarith
          · rw [List.mem_singleton] at hq
            subst hq
            refine ⟨by simp [hplaced, hh0], Or.inl ⟨by simp [hplaced], le_max_right _ _, ?_⟩⟩
            rw [if_pos heven]
            simp [hplaced]
            linarith
        obtain ⟨ih1, ih2, ih3⟩ := ih _ _ hext' hinv'
        rw [flowLoop, hstep]
        refine ⟨fun q hq f hf => ?_, ?_, fun f hf => ?_⟩
        · rcases List.mem_cons.1 hf with rfl | hf
          · exact hrel q hq
          · exact ih1 q (List.mem_append_left _ hq) f hf
        · refine List.Pairwise.cons (fun f hf => ?_) ih2
          exact ih1 placed (List.mem_append_right _ (List.mem_singleton_self _)) f hf
        · rcases List.mem_cons.1 hf with rfl | hf
          · exact ⟨by simp [hplaced]; linarith, by simp [hplaced, hh0]⟩
          · exact ih3 f hf
      · -- odd row, no wrap: step left and place at the cursor
        have hstep : flowStep cfg c p =
            (⟨c.x - (p.width + cfg.padding), c.y,
              max c.row_height (p.height + cfg.padding), c.row⟩,
             p.with_left_and_top (c.x - (p.width + cfg.padding)) c.y) := by
          simp [flowStep, h0, hwrap]
        set placed := p.with_left_and_top (c.x - (p.width + cfg.padding)) c.y with hplaced
        have hrel : ∀ q ∈ P, FlowRel cfg.padding q placed := by
          intro q hq
          obtain ⟨hqh, hqc⟩ := hP q hq
          rcases hqc with ⟨ht, hhr, hx⟩ | ⟨hb, _⟩
          · rw [if_neg h0] at hx
            right
            right
            simp [hplaced]
            linarith
          · left
            simp [hplaced]
            linarith
        have hinv' : FlowInv cfg
            ⟨c.x - (p.width + cfg.padding), c.y,
              max c.row_height (p.height + cfg.padding), c.row⟩ (P ++ [placed]) := by
          refine ⟨by simpa using hcy, le_trans hrh (le_max_left _ _), ?_⟩
          intro q hq
          rcases List.mem_append.1 hq with hq | hq
          · obtain ⟨hqh, hqc⟩ := hP q hq
            refine ⟨hqh, ?_⟩
            rcases hqc with ⟨ht, hhr, hx⟩ | ⟨hb, ht⟩
            · rw [if_neg h0] at hx
              refine Or.inl ⟨by simpa using ht, le_trans hhr (le_max_left _ _), ?_⟩
              rw [if_neg h0]
              simp
              linarith
            · exact Or.inr ⟨by simpa using hb, by simpa using ht⟩
          · rw [List.mem_singleton] at hq
            subst hq
            refine ⟨by simp [hplaced, hh0], Or.inl ⟨by simp [hplaced], le_max_right _ _, ?_⟩⟩
            rw [if_neg h0]
            simp [hplaced]
        obtain ⟨ih1, ih2, ih3⟩ := ih _ _ hext' hinv'
        rw [flowLoop, hstep]
        refine ⟨fun q hq f hf => ?_, ?_, fun f hf => ?_⟩
        · rcases List.mem_cons.1 hf with rfl | hf
          · exact hrel q hq
          · exact ih1 q (List.mem_append_left _ hq) f hf
        · refine List.Pairwise.cons (fun f hf => ?_) ih2
          exact ih1 placed (List.mem_append_right _ (List.mem_singleton_self _)) f hf
        · rcases List.mem_cons.1 hf with rfl | hf
          · exact ⟨by simpa [hplaced] using hcy, by simp [hplaced, hh0]⟩
          · exact ih3 f hf

/-- The structure of any `FlowedState::from` output: pairwise `FlowRel`,
tops below the padding line, positive heights. -/
theorem flowedFrom_struct (cfg : PackingConfig) (l : List Patch)
    (hpad : 0 ≤ cfg.padding)
    (hext : ∀ p ∈ l, 0 < p.width ∧ 0 < p.height) :
    (flowedFrom cfg l).Pairwise (FlowRel cfg.padding) ∧
    (∀ f ∈ flowedFrom cfg l, cfg.padding ≤ f.top ∧ 0 < f.height) := by
  have h := flowLoop_struct cfg hpad l ⟨cfg.padding, cfg.padding, 0, 0⟩ [] hext
    ⟨le_refl _, le_refl _, by simp⟩
  exact ⟨h.2.1, h.2.2⟩

/-! ### Claims C1 and C3: soundness of the compaction pass for `padding >= 1` -/

theorem packProbe_left (p : Patch) : (packProbe p).left = p.left := by
  simp [packProbe, Patch.left, Patch.width]

theorem packProbe_right (p : Patch) : (packProbe p).right = p.right := by
  simp [packProbe, Patch.right, Patch.width]

theorem packProbe_top (p : Patch) : (packProbe p).top = 0 := by
  simp only [packProbe, Patch.top]
  ring

theorem packProbe_bottom (p : Patch) : (packProbe p).bottom = p.top - 1 := by
  simp only [packProbe, Patch.bottom, Patch.top]
  ring

theorem packProbe_overlaps_iff (p e : Patch) :
    (packProbe p).overlaps e = true ↔
      p.left ≤ e.right ∧ e.left ≤ p.right ∧ 0 ≤ e.bottom ∧ e.top ≤ p.top - 1 := by
  rw [Patch.overlaps_eq_true_iff, packProbe_left, packProbe_right, packProbe_top,
    packProbe_bottom]

theorem le_foldl_max_init (lst : List Patch) (init : ℚ) :
    init ≤ lst.foldl (fun b c => max b c.bottom) init := by
  induction lst generalizing init with
  | nil => exact le_refl _
  | cons a as ih => exact le_trans (le_max_left _ _) (ih (max init a.bottom))

theorem le_foldl_max_mem {a : Patch} :
    ∀ {lst : List Patch}, a ∈ lst → ∀ init : ℚ,
      a.bottom ≤ lst.foldl (fun b c => max b c.bottom) init := by
  intro lst
  induction lst with
  | nil => intro h; simp at h
  | cons b bs ih =>
    intro h init
    rcases List.mem_cons.1 h with rfl | h
    · exact le_trans (le_max_right _ _) (le_foldl_max_init bs _)
    · exact ih h _

theorem foldl_max_le {B : ℚ} :
    ∀ {lst : List Patch} {init : ℚ}, init ≤ B → (∀ a ∈ lst, a.bottom ≤ B) →
      lst.foldl (fun b c => max b c.bottom) init ≤ B := by
  intro lst
  induction lst with
  | nil => intro init hinit _; exact hinit
  | cons a as ih =>
    intro init hinit h
    exact ih (max_le hinit (h a (List.mem_cons_self _ _)))
      fun b hb => h b (List.mem_cons_of_mem _ hb)

theorem forall₂_exists_right {R : Patch → Patch → Prop} :
    ∀ {l₁ l₂ : List Patch}, List.Forall₂ R l₁ l₂ → ∀ a ∈ l₁, ∃ b ∈ l₂, R a b := by
  intro l₁ l₂ h
  induction h with
  | nil => intro a ha; simp at ha
  | @cons x y ls rs hr _ ih =>
    intro a ha
    rcases List.mem_cons.1 ha with rfl | ha
    · exact ⟨y, List.mem_cons_self _ _, hr⟩
    · obtain ⟨b, hb, hab⟩ := ih a ha
      exact ⟨b, List.mem_cons_of_mem _ hb, hab⟩

/-- How an emitted (compacted) patch relates to the flowed patch it came
from: same horizontal interval and extent, moved up (or kept), and at or
below the padding line. -/
def Sim (pad : ℚ) (e f : Patch) : Prop :=
  e.left = f.left ∧ e.width = f.width ∧ e.height = f.height ∧ e.top ≤ f.top ∧ pad ≤ e.top

/-- Separation guarantee between an earlier emitted patch `a` and a later
one `b`: if their horizontal extents overlap at all, `b` rests at least
`pad` below `a`'s bottom edge. -/
def Sep (pad : ℚ) (a b : Patch) : Prop := xOverlap a b → a.bottom + pad ≤ b.top

theorem sim_right_eq {pad : ℚ} {e f : Patch} (h : Sim pad e f) : e.right = f.right := by
  rw [← e.left_add_width, ← f.left_add_width, h.1, h.2.1]

theorem packAux_sound (pad : ℚ) (hpad : 1 ≤ pad) :
    ∀ (rest emitted flowDone : List Patch),
      List.Forall₂ (Sim pad) emitted flowDone →
      (∀ f ∈ flowDone, ∀ p ∈ rest, FlowRel pad f p) →
      rest.Pairwise (FlowRel pad) →
      (∀ p ∈ rest, pad ≤ p.top ∧ 0 < p.height) →
      (∀ f ∈ flowDone, 0 < f.height) →
      List.Forall₂ (Sim pad) (packAux pad emitted rest) rest ∧
      (∀ e ∈ emitted, ∀ o ∈ packAux pad emitted rest, Sep pad e o) ∧
      (packAux pad emitted rest).Pairwise (Sep pad) := by
  intro rest
  induction rest with
  | nil =>
    intro emitted flowDone _ _ _ _ _
    exact ⟨List.Forall₂.nil, fun e _ o ho => by simp [packAux] at ho, by simp [packAux]⟩
  | cons p rest' ih =>
    intro emitted flowDone hsim hflow hpw hrest hfd
    obtain ⟨hptop, hph⟩ := hrest p (List.mem_cons_self _ _)
    set restY := (find_intersections (packProbe p) emitted).foldl
      (fun b c => max b c.bottom) 0 with hrestY
    set placed := p.with_left_and_top p.left (restY + pad) with hplaced
    -- Any emitted patch horizontally overlapping `p` is a full row above it
    -- (via its flowed original), hence is caught by the probe.
    have hfar : ∀ e ∈ emitted, xOverlap e p → e.bottom + pad ≤ p.top ∧
        (packProbe p).overlaps e = true := by
      intro e he hov
      obtain ⟨f, hf, hsimef⟩ := forall₂_exists_right hsim e he
      have hrt : e.right = f.right := sim_right_eq hsimef
      obtain ⟨hel, hew, heh, het, hpe⟩ := hsimef
      have hfh := hfd f hf
      have hfp := hflow f hf p (List.mem_cons_self _ _)
      obtain ⟨hov1, hov2⟩ := hov
      have hfb : f.bottom + pad ≤ p.top := by
        rcases hfp with h | h | h
        · exact h
        · -- `f.right + pad ≤ p.left` contradicts the horizontal overlap
          exfalso
          rw [← hrt] at h
          linarith
        · exfalso
          rw [← hel] at h
          linarith
      have hebot : e.bottom ≤ f.bottom := by
        have h1 := e.top_add_height
        have h2 := f.top_add_height
        linarith
      refine ⟨by linarith, ?_⟩
      rw [packProbe_overlaps_iff]
      have hfb' := f.top_add_height
      have heb' := e.top_add_height
      exact ⟨hov2, hov1, by linarith, by linarith⟩
    have hcaught : ∀ e ∈ find_intersections (packProbe p) emitted,
        e ∈ emitted ∧ e.bottom + pad ≤ p.top := by
      intro e he
      rw [find_intersections, List.mem_filter] at he
      obtain ⟨he, hov⟩ := he
      rw [packProbe_overlaps_iff] at hov
      have hxov : xOverlap e p := by
        constructor
        · have := e.left_add_width
          have := p.left_add_width
          linarith [hov.1, hov.2.1]
        · linarith [hov.1]
      exact ⟨he, (hfar e he hxov).1⟩
    have htopbound : restY + pad ≤ p.top := by
      rw [hrestY]
      have : (find_intersections (packProbe p) emitted).foldl
          (fun b c => max b c.bottom) 0 ≤ p.top - pad := by
        apply foldl_max_le
        · linarith
        · intro a ha
          have := (hcaught a ha).2
          linarith
      linarith
    have htop0 : pad ≤ restY + pad := by
      have := le_foldl_max_init (find_intersections (packProbe p) emitted) 0
      rw [hrestY]
      linarith
    have hsimp : Sim pad placed p := by
      refine ⟨by simp [hplaced], by simp [hplaced], by simp [hplaced], ?_, ?_⟩
      · simp only [hplaced, Patch.with_left_and_top_top]
        exact htopbound
      · simp only [hplaced, Patch.with_left_and_top_top]
        exact htop0
    have hsep : ∀ e ∈ emitted, Sep pad e placed := by
      intro e he hov
      have hpr : placed.right = p.right := by
        rw [hplaced, Patch.with_left_and_top_right, p.left_add_width]
      have hpl : placed.left = p.left := by simp [hplaced]
      have hxov : xOverlap e p := by
        obtain ⟨h1, h2⟩ := hov
        rw [hpr] at h1
        rw [hpl] at h2
        exact ⟨h1, h2⟩
      obtain ⟨hbound, hovl⟩ := hfar e he hxov
      have hmem : e ∈ find_intersections (packProbe p) emitted := by
        rw [find_intersections, List.mem_filter]
        exact ⟨he, hovl⟩
      have := le_foldl_max_mem hmem 0
      simp only [hplaced, Patch.with_left_and_top_top]
      rw [hrestY]
      linarith
    have hsim' : List.Forall₂ (Sim pad) (emitted ++ [placed]) (flowDone ++ [p]) :=
      List.rel_append hsim (List.Forall₂.cons hsimp List.Forall₂.nil)
    have hflow' : ∀ f ∈ flowDone ++ [p], ∀ p' ∈ rest', FlowRel pad f p' := by
      intro f hf p' hp'
      rcases List.mem_append.1 hf with hf | hf
      · exact hflow f hf p' (List.mem_cons_of_mem _ hp')
      · rw [List.mem_singleton] at hf
        subst hf
        exact (List.pairwise_cons.1 hpw).1 p' hp'
    have hpw' := (List.pairwise_cons.1 hpw).2
    have hrest' : ∀ p' ∈ rest', pad ≤ p'.top ∧ 0 < p'.height :=
      fun p' hp' => hrest p' (List.mem_cons_of_mem _ hp')
    have hfd' : ∀ f ∈ flowDone ++ [p], 0 < f.height := by
      intro f hf
      rcases List.mem_append.1 hf with hf | hf
      · exact hfd f hf
      · rw [List.mem_singleton] at hf
        subst hf
        exact hph
    obtain ⟨ih1, ih2, ih3⟩ := ih (emitted ++ [placed]) (flowDone ++ [p]) hsim' hflow'
      hpw' hrest' hfd'
    rw [packAux]
    refine ⟨List.Forall₂.cons hsimp ih1, fun e he o ho => ?_, ?_⟩
    · rcases List.mem_cons.1 ho with rfl | ho
      · exact hsep e he
      · exact ih2 e (List.mem_append_left _ he) o ho
    · refine List.Pairwise.cons (fun o ho => ?_) ih3
      exact ih2 placed (List.mem_append_right _ (List.mem_singleton_self _)) o ho

/-- Claim C3 (amended): with `padding >= 1` and positive patch extents,
compaction only moves patches up or leaves them in place: every patch's top
edge in the PackedUpwards output is at most its top edge in the Flowed
input (index by index). -/
theorem pack_monotone_compaction (cfg : PackingConfig) (l : List Patch)
    (hpad : 1 ≤ cfg.padding)
    (hext : ∀ p ∈ l, 0 < p.width ∧ 0 < p.height) :
    List.Forall₂ (fun o f => o.top ≤ f.top)
      (packedFrom cfg.padding (flowedFrom cfg l)) (flowedFrom cfg l) := by
  have hpad0 : 0 ≤ cfg.padding := by linarith
  obtain ⟨hpw, hstructs⟩ := flowedFrom_struct cfg l hpad0 hext
  have hform : packedFrom cfg.padding (flowedFrom cfg l) =
      packAux cfg.padding [] (flowedFrom cfg l) := by
    unfold packedFrom
    rw [packLoop_eq_append]
    rfl
  rw [hform]
  have h := packAux_sound cfg.padding hpad (flowedFrom cfg l) [] []
    List.Forall₂.nil (by simp) hpw hstructs (by simp)
  exact List.Forall₂.imp (fun a b hsim => hsim.2.2.2.1) h.1

/-- Witness for C3 (amended) at a concrete configuration and input. -/
theorem pack_monotone_compaction_witness :
    (1 : ℚ) ≤ (⟨100, 100, 1⟩ : PackingConfig).padding ∧
    List.Forall₂ (fun o f => o.top ≤ f.top)
      (packedFrom (⟨100, 100, 1⟩ : PackingConfig).padding
        (flowedFrom ⟨100, 100, 1⟩ [touchA]))
      (flowedFrom ⟨100, 100, 1⟩ [touchA]) :=
  ⟨by norm_num,
    pack_monotone_compaction ⟨100, 100, 1⟩ [touchA] (by norm_num)
      (by intro p hp
          rw [List.mem_singleton] at hp
          subst hp
          norm_num [touchA, Patch.width, Patch.height])⟩

/-- Claim C1 (amended): with `padding >= 1` and positive patch extents, no
two distinct patches of a PackedUpwards output overlap (in either order of
the inclusive test), and any two patches whose horizontal extents meet are
separated vertically by at least the padding. -/
theorem pack_no_overlap (cfg : PackingConfig) (l : List Patch)
    (hpad : 1 ≤ cfg.padding)
    (hext : ∀ p ∈ l, 0 < p.width ∧ 0 < p.height) :
    (packedFrom cfg.padding (flowedFrom cfg l)).Pairwise fun a b =>
      a.overlaps b = false ∧ b.overlaps a = false ∧
        (xOverlap a b → a.bottom + cfg.padding ≤ b.top) := by
  have hpad0 : 0 ≤ cfg.padding := by linarith
  obtain ⟨hpw, hstructs⟩ := flowedFrom_struct cfg l hpad0 hext
  have hform : packedFrom cfg.padding (flowedFrom cfg l) =
      packAux cfg.padding [] (flowedFrom cfg l) := by
    unfold packedFrom
    rw [packLoop_eq_append]
    rfl
  rw [hform]
  have h := packAux_sound cfg.padding hpad (flowedFrom cfg l) [] []
    List.Forall₂.nil (by simp) hpw hstructs (by simp)
  refine h.2.2.imp ?_
  intro a b hsep
  refine ⟨?_, ?_, hsep⟩
  · rw [Bool.eq_false_iff]
    intro htrue
    rw [Patch.overlaps_eq_true_iff] at htrue
    obtain ⟨h1, h2, h3, h4⟩ := htrue
    have hgap := hsep ⟨h1, h2⟩
    linarith
  · rw [Bool.eq_false_iff]
    intro htrue
    rw [Patch.overlaps_eq_true_iff] at htrue
    obtain ⟨h1, h2, h3, h4⟩ := htrue
    have hgap := hsep ⟨h2, h1⟩
    linarith

/-- Witness for C1 (amended) at a concrete configuration and input. -/
theorem pack_no_overlap_witness :
    (1 : ℚ) ≤ (⟨100, 100, 1⟩ : PackingConfig).padding ∧
    (packedFrom (⟨100, 100, 1⟩ : PackingConfig).padding
        (flowedFrom ⟨100, 100, 1⟩ [touchA])).Pairwise fun a b =>
      a.overlaps b = false ∧ b.overlaps a = false ∧
        (xOverlap a b → a.bottom + (⟨100, 100, 1⟩ : PackingConfig).padding ≤ b.top) :=
  ⟨by norm_num,
    pack_no_overlap ⟨100, 100, 1⟩ [touchA] (by norm_num)
      (by intro p hp
          rw [List.mem_singleton] at hp
          subst hp
          norm_num [touchA, Patch.width, Patch.height])⟩

/-! ### Counterexamples to C1 and C3 as stated (padding 0, sub-unit rows) -/

/-- Unit random samples (all in `[0,1)`) producing the C1 counterexample
layout from `InitialState::new` with a 2×3 grid on a 2×3 canvas. -/
def cexRandA : ℕ → ℚ := fun n =>
  if n = 1 ∨ n = 3 then 2 / 3 else if n = 5 ∨ n = 7 then 1 / 2 else
  if n = 9 then 1 / 3 else 0

/-- Canvas 2×3 with padding 0 for the C1 counterexample. -/
def cexCfgA : PackingConfig := ⟨2, 3, 0⟩

/-- The PackedUpwards output of the full pipeline run for the C1
counterexample (verified below). -/
def cexOutA : List Patch :=
  [⟨0, ⟨1/4, 9/20⟩, ⟨1/2, 9/10⟩, Rot.r0⟩,
   ⟨1, ⟨3/4, 9/20⟩, ⟨1/2, 9/10⟩, Rot.r0⟩,
   ⟨2, ⟨5/4, 2/5⟩, ⟨1/2, 4/5⟩, Rot.r0⟩,
   ⟨3, ⟨7/4, 2/5⟩, ⟨1/2, 4/5⟩, Rot.r0⟩,
   ⟨4, ⟨7/4, 7/20⟩, ⟨1/2, 7/10⟩, Rot.r0⟩,
   ⟨5, ⟨5/4, 1/4⟩, ⟨1/2, 1/2⟩, Rot.r0⟩]

/-- Claim C1 counterexample: running the whole pipeline (padding 0, 2×3
canvas, all random samples in `[0,1)`) yields a PackedUpwards output in
which the distinct patches at indices 3 and 4 overlap outright — their
interiors intersect, and neither rests exactly `padding` below the other —
because the probe's `top() - 1` margin overshoots the sub-unit rows. -/
theorem pack_overlap_counterexample :
    packedFrom cexCfgA.padding (flowedFrom cexCfgA (sortedByHeightFrom cexCfgA.padding
      (uprightPatches (InitialState.new cexCfgA 2 3 cexRandA)))) = cexOutA ∧
    cexOutA.get? 3 = some ⟨3, ⟨7/4, 2/5⟩, ⟨1/2, 4/5⟩, Rot.r0⟩ ∧
    cexOutA.get? 4 = some ⟨4, ⟨7/4, 7/20⟩, ⟨1/2, 7/10⟩, Rot.r0⟩ ∧
    (⟨3, ⟨7/4, 2/5⟩, ⟨1/2, 4/5⟩, Rot.r0⟩ : Patch).overlaps
      ⟨4, ⟨7/4, 7/20⟩, ⟨1/2, 7/10⟩, Rot.r0⟩ = true ∧
    (⟨3, ⟨7/4, 2/5⟩, ⟨1/2, 4/5⟩, Rot.r0⟩ : Patch).top ≠
      (⟨4, ⟨7/4, 7/20⟩, ⟨1/2, 7/10⟩, Rot.r0⟩ : Patch).bottom + cexCfgA.padding ∧
    (⟨4, ⟨7/4, 7/20⟩, ⟨1/2, 7/10⟩, Rot.r0⟩ : Patch).top ≠
      (⟨3, ⟨7/4, 2/5⟩, ⟨1/2, 4/5⟩, Rot.r0⟩ : Patch).bottom + cexCfgA.padding := by
  have h3 : (3 : ℤ).toNat = 3 := rfl
  have h2 : (2 : ℤ).toNat = 2 := rfl
  have hin : InitialState.new cexCfgA 2 3 cexRandA =
      [⟨0, ⟨1/2, 1/2⟩, ⟨1/2, 9/10⟩, Rot.r0⟩,
       ⟨1, ⟨3/2, 1/2⟩, ⟨1/2, 9/10⟩, Rot.r0⟩,
       ⟨2, ⟨1/2, 3/2⟩, ⟨1/2, 4/5⟩, Rot.r0⟩,
       ⟨3, ⟨3/2, 3/2⟩, ⟨1/2, 4/5⟩, Rot.r0⟩,
       ⟨4, ⟨1/2, 5/2⟩, ⟨1/2, 7/10⟩, Rot.r0⟩,
       ⟨5, ⟨3/2, 5/2⟩, ⟨1/2, 1/2⟩, Rot.r0⟩] := by
    simp only [InitialState.new, genRange, cexRandA, cexCfgA, h2, h3]
    norm_num [List.range_succ, List.flatMap_cons, List.flatMap_nil,
      Patch.mk.injEq, Vec2.mk.injEq]
  have hup : uprightPatches (InitialState.new cexCfgA 2 3 cexRandA) =
      InitialState.new cexCfgA 2 3 cexRandA := by
    rw [hin]
    simp only [uprightPatches, List.map]
    norm_num [Patch.uprighted, Patch.width, Patch.height, Patch.mk.injEq]
  have harr : sortedByHeightFrom cexCfgA.padding
      (uprightPatches (InitialState.new cexCfgA 2 3 cexRandA)) =
      [⟨0, ⟨1/4, 9/20⟩, ⟨1/2, 9/10⟩, Rot.r0⟩,
       ⟨1, ⟨3/4, 9/20⟩, ⟨1/2, 9/10⟩, Rot.r0⟩,
       ⟨2, ⟨5/4, 2/5⟩, ⟨1/2, 4/5⟩, Rot.r0⟩,
       ⟨3, ⟨7/4, 2/5⟩, ⟨1/2, 4/5⟩, Rot.r0⟩,
       ⟨4, ⟨9/4, 7/20⟩, ⟨1/2, 7/10⟩, Rot.r0⟩,
       ⟨5, ⟨11/4, 1/4⟩, ⟨1/2, 1/2⟩, Rot.r0⟩] := by
    rw [hup, hin]
    have hform : ∀ l : List Patch, sortedByHeightFrom cexCfgA.padding l =
        placeRow cexCfgA.padding cexCfgA.padding (sortPatchesByHeight l) := by
      intro l
      unfold sortedByHeightFrom
      rw [arrangeLoop_eq]
      rfl
    rw [hform]
    have hsort : sortPatchesByHeight
        [⟨0, ⟨1/2, 1/2⟩, ⟨1/2, 9/10⟩, Rot.r0⟩,
         ⟨1, ⟨3/2, 1/2⟩, ⟨1/2, 9/10⟩, Rot.r0⟩,
         ⟨2, ⟨1/2, 3/2⟩, ⟨1/2, 4/5⟩, Rot.r0⟩,
         ⟨3, ⟨3/2, 3/2⟩, ⟨1/2, 4/5⟩, Rot.r0⟩,
         ⟨4, ⟨1/2, 5/2⟩, ⟨1/2, 7/10⟩, Rot.r0⟩,
         ⟨5, ⟨3/2, 5/2⟩, ⟨1/2, 1/2⟩, Rot.r0⟩] =
        [⟨0, ⟨1/2, 1/2⟩, ⟨1/2, 9/10⟩, Rot.r0⟩,
         ⟨1, ⟨3/2, 1/2⟩, ⟨1/2, 9/10⟩, Rot.r0⟩,
         ⟨2, ⟨1/2, 3/2⟩, ⟨1/2, 4/5⟩, Rot.r0⟩,
         ⟨3, ⟨3/2, 3/2⟩, ⟨1/2, 4/5⟩, Rot.r0⟩,
         ⟨4, ⟨1/2, 5/2⟩, ⟨1/2, 7/10⟩, Rot.r0⟩,
         ⟨5, ⟨3/2, 5/2⟩, ⟨1/2, 1/2⟩, Rot.r0⟩] := by
      simp only [sortPatchesByHeight]
      norm_num [List.insertionSort, List.orderedInsert, Patch.height]
    rw [hsort]
    simp only [placeRow, cexCfgA]
    norm_num [Patch.with_left_and_top, Patch.width, Patch.mk.injEq, Vec2.mk.injEq]
  have hflow : flowedFrom cexCfgA (sortedByHeightFrom cexCfgA.padding
      (uprightPatches (InitialState.new cexCfgA 2 3 cexRandA))) =
      [⟨0, ⟨1/4, 9/20⟩, ⟨1/2, 9/10⟩, Rot.r0⟩,
       ⟨1, ⟨3/4, 9/20⟩, ⟨1/2, 9/10⟩, Rot.r0⟩,
       ⟨2, ⟨5/4, 2/5⟩, ⟨1/2, 4/5⟩, Rot.r0⟩,
       ⟨3, ⟨7/4, 2/5⟩, ⟨1/2, 4/5⟩, Rot.r0⟩,
       ⟨4, ⟨7/4, 5/4⟩, ⟨1/2, 7/10⟩, Rot.r0⟩,
       ⟨5, ⟨5/4, 23/20⟩, ⟨1/2, 1/2⟩, Rot.r0⟩] := by
    rw [harr]
    simp only [flowedFrom, cexCfgA, flowLoop, flowStep]
    norm_num [Patch.with_left_and_top, Patch.width, Patch.height,
      Patch.mk.injEq, Vec2.mk.injEq]
  refine ⟨?_, rfl, rfl, ?_, ?_, ?_⟩
  · rw [hflow]
    simp only [packedFrom, cexCfgA, cexOutA, packLoop, packProbe,
      find_intersections, List.filter_cons, List.filter_nil, Patch.overlaps]
    norm_num [Patch.left, Patch.right, Patch.top, Patch.bottom, Patch.width,
      Patch.height, Patch.with_left_and_top, Patch.mk.injEq, Vec2.mk.injEq,
      Bool.and_eq_true, decide_eq_true_eq, List.foldl]
  · rw [Patch.overlaps_eq_true_iff]
    norm_num [Patch.left, Patch.right, Patch.top, Patch.bottom]
  · norm_num [Patch.top, Patch.bottom, cexCfgA]
  · norm_num [Patch.top, Patch.bottom, cexCfgA]

/-- Unit random samples producing the C3 counterexample layout from
`InitialState::new` with a 2×2 grid on a 4×(24/5) canvas. -/
def cexRandB : ℕ → ℚ := fun n =>
  if n = 0 then 5 / 6 else if n = 1 then 35 / 36 else if n = 2 then 5 / 12 else
  if n = 3 then 5 / 24 else if n = 4 then 1 / 3 else if n = 5 then 5 / 36 else
  if n = 6 then 1 / 6 else 0

/-- Canvas 4×(24/5) with padding 0 for the C3 counterexample. -/
def cexCfgB : PackingConfig := ⟨4, 24/5, 0⟩

/-- The Flowed output of the pipeline run for the C3 counterexample
(verified below). -/
def cexFlowB : List Patch :=
  [⟨0, ⟨1, 13/10⟩, ⟨2, 13/5⟩, Rot.r0⟩,
   ⟨1, ⟨11/4, 3/4⟩, ⟨3/2, 3/2⟩, Rot.r0⟩,
   ⟨2, ⟨33/10, 33/10⟩, ⟨7/5, 7/5⟩, Rot.r0⟩,
   ⟨3, ⟨2, 16/5⟩, ⟨6/5, 6/5⟩, Rot.r0⟩]

/-- Claim C3 counterexample: on the pipeline run below (padding 0), the
patch with id 3 has top edge `13/5` in the Flowed output but top edge
`29/10 > 13/5` in the PackedUpwards output: compaction moved it DOWN.  (The
probe catches, across a touching horizontal boundary, a patch that had
settled more than one unit up, and the patch is re-emitted below its
obstruction's bottom edge.) -/
theorem pack_moves_patch_down_counterexample :
    flowedFrom cexCfgB (sortedByHeightFrom cexCfgB.padding
      (uprightPatches (InitialState.new cexCfgB 2 2 cexRandB))) = cexFlowB ∧
    (packedFrom cexCfgB.padding cexFlowB).get? 3 =
      some ⟨3, ⟨2, 7/2⟩, ⟨6/5, 6/5⟩, Rot.r0⟩ ∧
    cexFlowB.get? 3 = some ⟨3, ⟨2, 16/5⟩, ⟨6/5, 6/5⟩, Rot.r0⟩ ∧
    ¬((⟨3, ⟨2, 7/2⟩, ⟨6/5, 6/5⟩, Rot.r0⟩ : Patch).top ≤
      (⟨3, ⟨2, 16/5⟩, ⟨6/5, 6/5⟩, Rot.r0⟩ : Patch).top) := by
  have h2 : (2 : ℤ).toNat = 2 := rfl
  have hin : InitialState.new cexCfgB 2 2 cexRandB =
      [⟨0, ⟨1, 6/5⟩, ⟨2, 13/5⟩, Rot.r0⟩,
       ⟨1, ⟨3, 6/5⟩, ⟨3/2, 3/2⟩, Rot.r0⟩,
       ⟨2, ⟨1, 18/5⟩, ⟨7/5, 7/5⟩, Rot.r0⟩,
       ⟨3, ⟨3, 18/5⟩, ⟨6/5, 6/5⟩, Rot.r0⟩] := by
    simp only [InitialState.new, genRange, cexRandB, cexCfgB, h2]
    norm_num [List.range_succ, List.flatMap_cons, List.flatMap_nil,
      Patch.mk.injEq, Vec2.mk.injEq]
  have hup : uprightPatches (InitialState.new cexCfgB 2 2 cexRandB) =
      InitialState.new cexCfgB 2 2 cexRandB := by
    rw [hin]
    simp only [uprightPatches, List.map]
    norm_num [Patch.uprighted, Patch.width, Patch.height, Patch.mk.injEq]
  have harr : sortedByHeightFrom cexCfgB.padding
      (uprightPatches (InitialState.new cexCfgB 2 2 cexRandB)) =
      [⟨0, ⟨1, 13/10⟩, ⟨2, 13/5⟩, Rot.r0⟩,
       ⟨1, ⟨11/4, 3/4⟩, ⟨3/2, 3/2⟩, Rot.r0⟩,
       ⟨2, ⟨21/5, 7/10⟩, ⟨7/5, 7/5⟩, Rot.r0⟩,
       ⟨3, ⟨11/2, 3/5⟩, ⟨6/5, 6/5⟩, Rot.r0⟩] := by
    rw [hup, hin]
    have hform : ∀ l : List Patch, sortedByHeightFrom cexCfgB.padding l =
        placeRow cexCfgB.padding cexCfgB.padding (sortPatchesByHeight l) := by
      intro l
      unfold sortedByHeightFrom
      rw [arrangeLoop_eq]
      rfl
    rw [hform]
    have hsort : sortPatchesByHeight
        [⟨0, ⟨1, 6/5⟩, ⟨2, 13/5⟩, Rot.r0⟩,
         ⟨1, ⟨3, 6/5⟩, ⟨3/2, 3/2⟩, Rot.r0⟩,
         ⟨2, ⟨1, 18/5⟩, ⟨7/5, 7/5⟩, Rot.r0⟩,
         ⟨3, ⟨3, 18/5⟩, ⟨6/5, 6/5⟩, Rot.r0⟩] =
        [⟨0, ⟨1, 6/5⟩, ⟨2, 13/5⟩, Rot.r0⟩,
         ⟨1, ⟨3, 6/5⟩, ⟨3/2, 3/2⟩, Rot.r0⟩,
         ⟨2, ⟨1, 18/5⟩, ⟨7/5, 7/5⟩, Rot.r0⟩,
         ⟨3, ⟨3, 18/5⟩, ⟨6/5, 6/5⟩, Rot.r0⟩] := by
      simp only [sortPatchesByHeight]
      norm_num [List.insertionSort, List.orderedInsert, Patch.height]
    rw [hsort]
    simp only [placeRow, cexCfgB]
    norm_num [Patch.with_left_and_top, Patch.width, Patch.mk.injEq, Vec2.mk.injEq]
  refine ⟨?_, ?_, rfl, ?_⟩
  · rw [harr]
    simp only [flowedFrom, cexCfgB, cexFlowB, flowLoop, flowStep]
    norm_num [Patch.with_left_and_top, Patch.width, Patch.height,
      Patch.mk.injEq, Vec2.mk.injEq]
  · have hpack : packedFrom cexCfgB.padding cexFlowB =
        [⟨0, ⟨1, 13/10⟩, ⟨2, 13/5⟩, Rot.r0⟩,
         ⟨1, ⟨11/4, 3/4⟩, ⟨3/2, 3/2⟩, Rot.r0⟩,
         ⟨2, ⟨33/10, 11/5⟩, ⟨7/5, 7/5⟩, Rot.r0⟩,
         ⟨3, ⟨2, 7/2⟩, ⟨6/5, 6/5⟩, Rot.r0⟩] := by
      simp only [packedFrom, cexCfgB, cexFlowB, packLoop, packProbe,
        find_intersections, List.filter_cons, List.filter_nil, Patch.overlaps]
      norm_num [Patch.left, Patch.right, Patch.top, Patch.bottom, Patch.width,
        Patch.height, Patch.with_left_and_top, Patch.mk.injEq, Vec2.mk.injEq,
        Bool.and_eq_true, decide_eq_true_eq, List.foldl]
    rw [hpack]
    rfl
  · norm_num [Patch.top]

end TexturePacker
